import Mathlib

/-!
Shallow embedding of the segment-to-turn transcription core of
`danish-stt.py`: the pause-based speaker attribution heuristic, the
content-marker text normalization, the interview statistics block of
`main`, the audio-quality estimate, and the timestamp/duration
formatting utilities.

Modelling conventions:
* Python floats (times, confidence scores) are modelled as rationals.
* Python strings are modelled as `List Char`; the two marker strings
  are concrete character lists.
* A segment dict that may lack the `avg_logprob` key is modelled with an
  `Option ℚ` field (`none` = key absent, so `seg.get('avg_logprob', d)`
  becomes `Option.getD _ d`).
* A Python division that is not guarded by the source (and hence can
  raise `ZeroDivisionError`) is modelled by `pyDiv`, which returns
  `none` exactly when the denominator is zero; the metadata dict of
  `main` therefore becomes an `Option Metadata` that is `none` exactly
  when building the dict raises.
* Guarded conditional expressions (`x / y if ys else 0`) are modelled
  by the same conditional with total division.
-/

namespace DStt

/-- Ascii whitespace as stripped by Python `str.strip()` and split on by
`str.split()`: space, tab, newline, carriage return, vertical tab, form
feed. -/
def pyIsSpaceChar (c : Char) : Bool :=
  c == ' ' || c == '\t' || c == '\n' || c == '\r' || c == Char.ofNat 11 || c == Char.ofNat 12

/-- Python `s.strip()`: drop whitespace from both ends. -/
def pyStrip (s : List Char) : List Char :=
  ((s.dropWhile pyIsSpaceChar).reverse.dropWhile pyIsSpaceChar).reverse

/-- The replacement text used for `...` in `add_content_markers`. -/
def pauseMarker : List Char := ['[', 'P', 'A', 'U', 'S', 'E', ']']

/-- The marker returned by `add_content_markers` for near-empty text. -/
def unclearMarker : List Char := ['[', 'U', 'N', 'C', 'L', 'E', 'A', 'R', ']']

/-- Python `s.replace("...", "[PAUSE]")`: greedy left-to-right
replacement of non-overlapping occurrences. -/
def replaceDots : List Char → List Char
  | a :: b :: c :: rest =>
    if a = '.' ∧ b = '.' ∧ c = '.' then pauseMarker ++ replaceDots rest
    else a :: replaceDots (b :: c :: rest)
  | s => s

/-- Python `s.replace("  ", " ")`: greedy left-to-right replacement of
non-overlapping two-space occurrences by a single space. -/
def collapseTwoSpaces : List Char → List Char
  | a :: b :: rest =>
    if a = ' ' ∧ b = ' ' then ' ' :: collapseTwoSpaces rest
    else a :: collapseTwoSpaces (b :: rest)
  | s => s

/-- `add_content_markers(text)` from the source: return `[UNCLEAR]` when
the stripped text has fewer than 3 characters, otherwise substitute
`...` by `[PAUSE]`, collapse double spaces once, and strip. -/
def add_content_markers (text : List Char) : List Char :=
  if (pyStrip text).length < 3 then unclearMarker
  else pyStrip (collapseTwoSpaces (replaceDots text))

/-- Scanner: does the list contain three consecutive dots? -/
def hasTriple : List Char → Bool
  | a :: b :: c :: rest =>
    if a = '.' ∧ b = '.' ∧ c = '.' then true else hasTriple (b :: c :: rest)
  | _ => false

/-- Scanner: does the list contain two consecutive spaces? -/
def hasDoubleSpace : List Char → Bool
  | a :: b :: rest =>
    if a = ' ' ∧ b = ' ' then true else hasDoubleSpace (b :: rest)
  | _ => false

/-- One Whisper segment: start/end times in seconds, raw text, and the
optional `avg_logprob` confidence value. -/
structure Segment where
  start : ℚ
  «end» : ℚ
  text : List Char
  avg_logprob : Option ℚ
deriving DecidableEq

/-- Speaker flip used by `detect_speaker_changes`:
`"PARTICIPANT" if current_speaker == "INTERVIEWER" else "INTERVIEWER"`. -/
def otherSpeaker (s : String) : String :=
  if s = "INTERVIEWER" then "PARTICIPANT" else "INTERVIEWER"

/-- The mutable loop state of `detect_speaker_changes`:
`current_speaker` and `last_speaker_change_time`. -/
structure DetectState where
  current : String
  lastChange : ℚ

/-- The loop of `detect_speaker_changes` from its second iteration on:
given the state after the previous segment and the previous segment,
produce the remaining labels together with the start times of the
segments at which a speaker switch happened. -/
def detectAux (θ μ : ℚ) : DetectState → Segment → List Segment → List String × List ℚ
  | _, _, [] => ([], [])
  | st, prev, seg :: rest =>
    if seg.start - prev.«end» > θ ∧ seg.start - st.lastChange > μ then
      let r := detectAux θ μ ⟨otherSpeaker st.current, seg.start⟩ seg rest
      (otherSpeaker st.current :: r.1, seg.start :: r.2)
    else
      let r := detectAux θ μ st seg rest
      (st.current :: r.1, r.2)

/-- `detect_speaker_changes(segments, silence_threshold, min_speaker_time)`
from the source: the first segment is labelled with the initial speaker
`INTERVIEWER`; afterwards the speaker flips when the inter-segment gap
exceeds the silence threshold and enough time has passed since the last
change. -/
def detect_speaker_changes (segments : List Segment) (silence_threshold min_speaker_time : ℚ) : List String :=
  match segments with
  | [] => []
  | s0 :: rest =>
    "INTERVIEWER" :: (detectAux silence_threshold min_speaker_time ⟨"INTERVIEWER", 0⟩ s0 rest).1

/-- The start times of the segments at which `detect_speaker_changes`
switched speaker, in order. -/
def flipStarts (segments : List Segment) (silence_threshold min_speaker_time : ℚ) : List ℚ :=
  match segments with
  | [] => []
  | s0 :: rest => (detectAux silence_threshold min_speaker_time ⟨"INTERVIEWER", 0⟩ s0 rest).2

/-- Helper of `pySplit`: accumulate the current (reversed) word. -/
def pySplitAux : List Char → List Char → List (List Char)
  | [], acc => if acc = [] then [] else [acc.reverse]
  | c :: rest, acc =>
    if pyIsSpaceChar c then
      if acc = [] then pySplitAux rest [] else acc.reverse :: pySplitAux rest []
    else pySplitAux rest (c :: acc)

/-- Python `s.split()` with no argument: whitespace-delimited tokens,
with no empty tokens. -/
def pySplit (s : List Char) : List (List Char) := pySplitAux s []

/-- `total_words`: sum of `len(seg['text'].split())` over all segments. -/
def total_words (segments : List Segment) : ℕ :=
  (segments.map (fun s => (pySplit s.text).length)).sum

/-- `avg_words_per_segment = total_words / len(segments) if segments else 0`. -/
def avg_words_per_segment (segments : List Segment) : ℚ :=
  if segments = [] then 0 else (total_words segments : ℚ) / (segments.length : ℚ)

/-- `confidences = [seg.get('avg_logprob', -2) for seg in segments]`. -/
def confidences (segments : List Segment) : List ℚ :=
  segments.map (fun s => s.avg_logprob.getD (-2))

/-- `avg_confidence = sum(confidences) / len(confidences) if confidences else -2`. -/
def avg_confidence (segments : List Segment) : ℚ :=
  if confidences segments = [] then -2
  else (confidences segments).sum / ((confidences segments).length : ℚ)

/-- `high_confidence_segments = len([c for c in confidences if c > -0.5])`. -/
def high_confidence_segments (segments : List Segment) : ℕ :=
  ((confidences segments).filter (fun c => decide (c > -1/2))).length

/-- `medium_confidence_segments = len([c for c in confidences if -1.0 <= c <= -0.5])`. -/
def medium_confidence_segments (segments : List Segment) : ℕ :=
  ((confidences segments).filter (fun c => decide (-1 ≤ c ∧ c ≤ -1/2))).length

/-- `low_confidence_segments = len([c for c in confidences if c < -1.0])`. -/
def low_confidence_segments (segments : List Segment) : ℕ :=
  ((confidences segments).filter (fun c => decide (c < -1))).length

/-- `segment_lengths = [seg['end'] - seg['start'] for seg in segments]`. -/
def segment_lengths (segments : List Segment) : List ℚ :=
  segments.map (fun s => s.«end» - s.start)

/-- `avg_segment_length = sum(...) / len(...) if segment_lengths else 0`. -/
def avg_segment_length (segments : List Segment) : ℚ :=
  if segment_lengths segments = [] then 0
  else (segment_lengths segments).sum / ((segment_lengths segments).length : ℚ)

/-- `longest_segment = max(segment_lengths) if segment_lengths else 0`. -/
def longest_segment (segments : List Segment) : ℚ :=
  match segment_lengths segments with
  | [] => 0
  | x :: xs => xs.foldl max x

/-- `shortest_segment = min(segment_lengths) if segment_lengths else 0`. -/
def shortest_segment (segments : List Segment) : ℚ :=
  match segment_lengths segments with
  | [] => 0
  | x :: xs => xs.foldl min x

/-- The pause loop of `main`: for `i in range(1, len(segments))`, append
`segments[i].start - segments[i-1].end` when it is `> 0`. -/
def pausesAux : Segment → List Segment → List ℚ
  | _, [] => []
  | prev, seg :: rest =>
    if seg.start - prev.«end» > 0 then (seg.start - prev.«end») :: pausesAux seg rest
    else pausesAux seg rest

/-- The `pauses` list computed by `main`. -/
def pauses (segments : List Segment) : List ℚ :=
  match segments with
  | [] => []
  | s0 :: rest => pausesAux s0 rest

/-- `avg_pause_duration = sum(pauses) / len(pauses) if pauses else 0`. -/
def avg_pause_duration (segments : List Segment) : ℚ :=
  if pauses segments = [] then 0
  else (pauses segments).sum / ((pauses segments).length : ℚ)

/-- `longest_pause = max(pauses) if pauses else 0`. -/
def longest_pause (segments : List Segment) : ℚ :=
  match pauses segments with
  | [] => 0
  | x :: xs => xs.foldl max x

/-- `total_pause_time = sum(pauses)`. -/
def total_pause_time (segments : List Segment) : ℚ := (pauses segments).sum

/-- Round-half-to-even on a rational, the rounding mode of Python's
`round`. -/
def roundHalfEven (x : ℚ) : ℤ :=
  if x - ⌊x⌋ < 1/2 then ⌊x⌋
  else if x - ⌊x⌋ > 1/2 then ⌊x⌋ + 1
  else if ⌊x⌋ % 2 = 0 then ⌊x⌋ else ⌊x⌋ + 1

/-- Python `round(x, 1)` (on the idealised rational value). -/
def pyRound1 (x : ℚ) : ℚ := (roundHalfEven (x * 10) : ℚ) / 10

/-- Python `round(x, 2)` (on the idealised rational value). -/
def pyRound2 (x : ℚ) : ℚ := (roundHalfEven (x * 100) : ℚ) / 100

/-- Python `round(x, 3)` (on the idealised rational value). -/
def pyRound3 (x : ℚ) : ℚ := (roundHalfEven (x * 1000) : ℚ) / 1000

/-- Unguarded Python division: `none` exactly when it would raise
`ZeroDivisionError`. -/
def pyDiv (a b : ℚ) : Option ℚ := if b = 0 then none else some (a / b)

/-- `round((high_confidence_segments / len(segments)) * 100, 1)` — the
source does not guard this division against an empty segment list. -/
def high_confidence_pct (segments : List Segment) : Option ℚ :=
  (pyDiv (high_confidence_segments segments : ℚ) (segments.length : ℚ)).map
    (fun q => pyRound1 (q * 100))

/-- `round((medium_confidence_segments / len(segments)) * 100, 1)`,
unguarded as in the source. -/
def medium_confidence_pct (segments : List Segment) : Option ℚ :=
  (pyDiv (medium_confidence_segments segments : ℚ) (segments.length : ℚ)).map
    (fun q => pyRound1 (q * 100))

/-- `round((low_confidence_segments / len(segments)) * 100, 1)`,
unguarded as in the source. -/
def low_confidence_pct (segments : List Segment) : Option ℚ :=
  (pyDiv (low_confidence_segments segments : ℚ) (segments.length : ℚ)).map
    (fun q => pyRound1 (q * 100))

/-- `round((audio_duration - total_pause_time) / audio_duration * 100, 1)
if audio_duration > 0 else 0`. -/
def speech_vs_pause_ratio (audio_duration : ℚ) (segments : List Segment) : ℚ :=
  if audio_duration > 0 then
    pyRound1 ((audio_duration - total_pause_time segments) / audio_duration * 100)
  else 0

/-- `get_audio_quality_estimate` from the source: `"Unknown"` on an
empty segment list, otherwise classify the average of
`seg.get('avg_logprob', -1)`.  Note the default here is `-1`, not `-2`. -/
def get_audio_quality_estimate (segments : List Segment) : String :=
  if segments = [] then "Unknown"
  else
    let avg := (segments.map (fun s => s.avg_logprob.getD (-1))).sum / (segments.length : ℚ)
    if avg > -1/2 then "High" else if avg > -1 then "Medium" else "Low"

/-- Variant of the audio-quality estimate written from claim C4's words:
a segment lacking a confidence score is treated as having confidence −2
in the average used by the classification.  Used only to compare the
claim against the source behaviour. -/
def get_audio_quality_estimate_claimed (segments : List Segment) : String :=
  if segments = [] then "Unknown"
  else
    let avg := (segments.map (fun s => s.avg_logprob.getD (-2))).sum / (segments.length : ℚ)
    if avg > -1/2 then "High" else if avg > -1 then "Medium" else "Low"

/-- Replace an absent `avg_logprob` by the explicit value `d`. -/
def fillConf (d : ℚ) (segments : List Segment) : List Segment :=
  segments.map (fun s => ⟨s.start, s.«end», s.text, some (s.avg_logprob.getD d)⟩)

/-- Python `int(x)` on a float/rational: truncation toward zero. -/
def pyInt (x : ℚ) : ℤ := if 0 ≤ x then ⌊x⌋ else ⌈x⌉

/-- Python `a // b` on floats: the floor of the quotient, as a float. -/
def pyFloorDiv (a b : ℚ) : ℚ := (⌊a / b⌋ : ℚ)

/-- Python `a % b` on floats: `a - b * (a // b)`. -/
def pyMod (a b : ℚ) : ℚ := a - b * pyFloorDiv a b

/-- Python `f"{n:02d}"`: decimal representation left-padded with `0` to
at least two characters. -/
def pad2 (n : ℤ) : String := if 0 ≤ n ∧ n < 10 then "0" ++ toString n else toString n

/-- `format_timestamp(seconds)` from the source:
`minutes = int(seconds // 60)`, `seconds = int(seconds % 60)`,
rendered `"MM:SS"`. -/
def format_timestamp (seconds : ℚ) : String :=
  pad2 (pyInt (pyFloorDiv seconds 60)) ++ ":" ++ pad2 (pyInt (pyMod seconds 60))

/-- `format_duration(seconds)` from the source: hours, minutes within
the hour, seconds within the minute; `"HH:MM:SS"` when `hours > 0`,
else `"MM:SS"`. -/
def format_duration (seconds : ℚ) : String :=
  let hours := pyInt (pyFloorDiv seconds 3600)
  let minutes := pyInt (pyFloorDiv (pyMod seconds 3600) 60)
  let secs := pyInt (pyMod seconds 60)
  if hours > 0 then pad2 hours ++ ":" ++ pad2 minutes ++ ":" ++ pad2 secs
  else pad2 minutes ++ ":" ++ pad2 secs

/-- Claim C9's reading of `format_timestamp`: `floor(s/60)` and
`floor(s mod 60)`, zero-padded to width 2, joined by `":"`. -/
def format_timestamp_claimed (s : ℚ) : String :=
  pad2 ⌊s / 60⌋ ++ ":" ++ pad2 ⌊s - 60 * (⌊s / 60⌋ : ℚ)⌋

/-- Claim C9's reading of `format_duration`: `"HH:MM:SS"` when
`floor(s/3600) > 0`, else `"MM:SS"`, under the same truncation rule. -/
def format_duration_claimed (s : ℚ) : String :=
  if 0 < ⌊s / 3600⌋ then
    pad2 ⌊s / 3600⌋ ++ ":" ++ pad2 ⌊(s - 3600 * (⌊s / 3600⌋ : ℚ)) / 60⌋ ++ ":"
      ++ pad2 ⌊s - 60 * (⌊s / 60⌋ : ℚ)⌋
  else format_timestamp_claimed s

/-- The gaps between adjacent segments, `start[i] - end[i-1]`, written
directly from the spec's description of the pause statistics. -/
def adjacentGaps (segments : List Segment) : List ℚ :=
  (segments.zip segments.tail).map (fun p => p.2.start - p.1.«end»)

/-- The statistics part of the `metadata` dict built by `main`
(lines 378–401 of the source).  The three confidence percentages are the
only entries whose computation can raise, so the whole record is `none`
exactly when building the dict raises `ZeroDivisionError`. -/
structure Metadata where
  duration : String
  audio_quality : String
  total_segments : ℕ
  total_words : ℕ
  avg_words_per_segment : ℚ
  avg_confidence : ℚ
  high_confidence_pct : ℚ
  medium_confidence_pct : ℚ
  low_confidence_pct : ℚ
  avg_segment_length : ℚ
  longest_segment : ℚ
  shortest_segment : ℚ
  total_pauses : ℕ
  avg_pause_duration : ℚ
  longest_pause : ℚ
  total_pause_time : ℚ
  speech_vs_pause_ratio : ℚ

/-- Build the statistics metadata of `main`, propagating the possible
`ZeroDivisionError` of the three confidence percentages. -/
def mkMetadata (audio_duration : ℚ) (segments : List Segment) : Option Metadata :=
  match high_confidence_pct segments, medium_confidence_pct segments, low_confidence_pct segments with
  | some hp, some mp, some lp =>
    some ⟨format_duration audio_duration,
      get_audio_quality_estimate segments,
      segments.length,
      total_words segments,
      pyRound1 (avg_words_per_segment segments),
      pyRound3 (avg_confidence segments),
      hp, mp, lp,
      pyRound2 (avg_segment_length segments),
      pyRound2 (longest_segment segments),
      pyRound2 (shortest_segment segments),
      (pauses segments).length,
      pyRound2 (avg_pause_duration segments),
      pyRound2 (longest_pause segments),
      pyRound2 (total_pause_time segments),
      speech_vs_pause_ratio audio_duration segments⟩
  | _, _, _ => none

end DStt

namespace DStt

/-! ### Helper lemmas about the speaker attributor -/

lemma otherSpeaker_mem (s : String) :
    otherSpeaker s = "INTERVIEWER" ∨ otherSpeaker s = "PARTICIPANT" := by
  unfold otherSpeaker; split <;> simp

lemma otherSpeaker_ne (s : String) : otherSpeaker s ≠ s := by
  unfold otherSpeaker
  split
  · rename_i h; rw [h]; decide
  · rename_i h; exact fun hh => h hh.symm

lemma detectAux_length (θ μ : ℚ) (l : List Segment) :
    ∀ (st : DetectState) (prev : Segment), (detectAux θ μ st prev l).1.length = l.length := by
  induction l with
  | nil => intro st prev; rfl
  | cons seg rest ih =>
    intro st prev
    by_cases h : seg.start - prev.«end» > θ ∧ seg.start - st.lastChange > μ <;>
      simp [detectAux, h, ih]

lemma detectAux_mem (θ μ : ℚ) (l : List Segment) :
    ∀ (st : DetectState) (prev : Segment),
      st.current = "INTERVIEWER" ∨ st.current = "PARTICIPANT" →
      ∀ lab ∈ (detectAux θ μ st prev l).1,
        lab = "INTERVIEWER" ∨ lab = "PARTICIPANT" := by
  induction l with
  | nil => intro st prev _ lab hmem; simp [detectAux] at hmem
  | cons seg rest ih =>
    intro st prev hst lab hmem
    by_cases h : seg.start - prev.«end» > θ ∧ seg.start - st.lastChange > μ
    · simp only [detectAux, if_pos h, List.mem_cons] at hmem
      rcases hmem with rfl | hmem
      · exact otherSpeaker_mem st.current
      · exact ih ⟨otherSpeaker st.current, seg.start⟩ seg (otherSpeaker_mem st.current) lab hmem
    · simp only [detectAux, if_neg h, List.mem_cons] at hmem
      rcases hmem with rfl | hmem
      · exact hst
      · exact ih st seg hst lab hmem

lemma detectAux_chain (θ μ : ℚ) (l : List Segment) :
    ∀ (st : DetectState) (prev : Segment),
      List.Chain (fun a b => b - a > μ) st.lastChange (detectAux θ μ st prev l).2 := by
  induction l with
  | nil => intro st prev; simp [detectAux]
  | cons seg rest ih =>
    intro st prev
    by_cases h : seg.start - prev.«end» > θ ∧ seg.start - st.lastChange > μ
    · simp only [detectAux, if_pos h]
      exact List.Chain.cons h.2 (ih ⟨otherSpeaker st.current, seg.start⟩ seg)
    · simp only [detectAux, if_neg h]
      exact ih st seg

/-! ### Helper lemmas about the pause list -/

lemma pausesAux_eq_filter (l : List Segment) :
    ∀ prev : Segment,
      pausesAux prev l
        = (((prev :: l).zip l).map (fun p => p.2.start - p.1.«end»)).filter
            (fun d => decide (0 < d)) := by
  induction l with
  | nil => intro prev; rfl
  | cons seg rest ih =>
    intro prev
    by_cases h : seg.start - prev.«end» > 0 <;>
      simp [pausesAux, h, List.filter, ih seg, List.zip]

/-! ### Claim theorems (C1, C2, C4–C10) -/

/-- Claim C1 (code_bug evidence): on the empty segment sequence every
guarded statistic of `main` does degrade to its neutral default and the
audio quality is `"Unknown"`, but the three confidence percentages
divide by `len(segments) == 0` unguarded, so building the metadata dict
raises `ZeroDivisionError` (modelled by `none`) instead of defaulting
the percentages to 0 as the claim states. -/
theorem c1_empty_segment_stats (d : ℚ) :
    mkMetadata d [] = none
    ∧ high_confidence_pct [] = none
    ∧ medium_confidence_pct [] = none
    ∧ low_confidence_pct [] = none
    ∧ get_audio_quality_estimate [] = "Unknown"
    ∧ avg_words_per_segment [] = 0
    ∧ avg_confidence [] = -2
    ∧ avg_segment_length [] = 0
    ∧ longest_segment [] = 0
    ∧ shortest_segment [] = 0
    ∧ pauses [] = []
    ∧ avg_pause_duration [] = 0
    ∧ longest_pause [] = 0
    ∧ total_pause_time [] = 0
    ∧ speech_vs_pause_ratio 0 [] = 0 := by
  refine ⟨?_, ?_, ?_, ?_, ?_, ?_, ?_, ?_, ?_, ?_, ?_, ?_, ?_, ?_, ?_⟩ <;>
    simp [mkMetadata, high_confidence_pct, medium_confidence_pct, low_confidence_pct,
      pyDiv, get_audio_quality_estimate, avg_words_per_segment, avg_confidence,
      confidences, avg_segment_length, segment_lengths, longest_segment,
      shortest_segment, pauses, avg_pause_duration, longest_pause,
      total_pause_time, speech_vs_pause_ratio]

/-- Claim C2 counterexample: on the exact input `"  ..."` the normalizer
does not return `[UNCLEAR]` (the stripped text `"..."` has length 3, so
the `< 3` check does not fire). -/
theorem c2_counterexample :
    add_content_markers [' ', ' ', '.', '.', '.'] ≠ unclearMarker := by decide

/-- Claim C2 (amended): the stripped-length check runs first, on the
stripped text, and returns `[UNCLEAR]` whenever the stripped length is
below 3; but for `"  ..."` the stripped text is `"..."` of length
exactly 3, so the check does not fire and the `...` substitution yields
`[PAUSE]`. -/
theorem c2_short_text_amended :
    (∀ t : List Char, (pyStrip t).length < 3 → add_content_markers t = unclearMarker)
    ∧ pyStrip [' ', ' ', '.', '.', '.'] = ['.', '.', '.']
    ∧ add_content_markers [' ', ' ', '.', '.', '.'] = pauseMarker := by
  refine ⟨fun t h => ?_, by decide, by decide⟩
  unfold add_content_markers
  rw [if_pos h]

/-- Witness for `c2_short_text_amended` at the concrete input `"h"`. -/
theorem c2_witness :
    (pyStrip ['h']).length < 3 ∧ add_content_markers ['h'] = unclearMarker :=
  ⟨by decide, c2_short_text_amended.1 ['h'] (by decide)⟩

/-- Claim C4 counterexample: with segments scored `-0.2` and unscored,
the source's audio-quality estimate (default `-1`) answers `"Medium"`
while the claimed `-2` default would answer `"Low"`; the missing
confidence is therefore not treated as `-2` in the audio-quality
average. -/
theorem c4_counterexample :
    get_audio_quality_estimate [⟨0, 1, [], some (-1/5)⟩, ⟨1, 2, [], none⟩] = "Medium"
    ∧ get_audio_quality_estimate_claimed [⟨0, 1, [], some (-1/5)⟩, ⟨1, 2, [], none⟩] = "Low"
    ∧ get_audio_quality_estimate [⟨0, 1, [], some (-1/5)⟩, ⟨1, 2, [], none⟩]
        ≠ get_audio_quality_estimate_claimed [⟨0, 1, [], some (-1/5)⟩, ⟨1, 2, [], none⟩] := by
  have h1 : get_audio_quality_estimate [⟨0, 1, [], some (-1/5)⟩, ⟨1, 2, [], none⟩] = "Medium" := by
    norm_num [get_audio_quality_estimate]
    intro h
    simp at h
  have h2 : get_audio_quality_estimate_claimed [⟨0, 1, [], some (-1/5)⟩, ⟨1, 2, [], none⟩] = "Low" := by
    norm_num [get_audio_quality_estimate_claimed]
    intro h
    simp at h
  refine ⟨h1, h2, ?_⟩
  rw [h1, h2]; decide

/-- Claim C4 (amended): a missing confidence defaults to `-2` in the
statistics confidence list — filling `-2` in explicitly changes none of
the confidence statistics — while the audio-quality estimate uses the
default `-1` instead. -/
theorem c4_defaults_amended (segments : List Segment) :
    confidences (fillConf (-2) segments) = confidences segments
    ∧ avg_confidence (fillConf (-2) segments) = avg_confidence segments
    ∧ high_confidence_segments (fillConf (-2) segments) = high_confidence_segments segments
    ∧ medium_confidence_segments (fillConf (-2) segments) = medium_confidence_segments segments
    ∧ low_confidence_segments (fillConf (-2) segments) = low_confidence_segments segments
    ∧ get_audio_quality_estimate (fillConf (-1) segments) = get_audio_quality_estimate segments := by
  have hconf : confidences (fillConf (-2) segments) = confidences segments := by
    simp [confidences, fillConf, List.map_map, Function.comp]
  refine ⟨hconf, ?_, ?_, ?_, ?_, ?_⟩
  · simp [avg_confidence, hconf]
  · simp [high_confidence_segments, hconf]
  · simp [medium_confidence_segments, hconf]
  · simp [low_confidence_segments, hconf]
  · simp [get_audio_quality_estimate, fillConf, List.map_map, Function.comp_def]

/-- Claim C5: at each non-initial segment the attributor flips exactly
when the gap exceeds the silence threshold and the time since the last
change exceeds the minimum speaker time; on a flip the continuation
carries `last_change_time = start`, otherwise the state is unchanged; a
negative gap never flips (for a non-negative threshold); and on
scenario B (`[{0,2},{5,7}]`, threshold 1.2, min time 1.0) the second
segment is labelled PARTICIPANT. -/
theorem c5_flip_rule (θ μ : ℚ) (st : DetectState) (prev seg : Segment) (rest : List Segment) :
    ((detectAux θ μ st prev (seg :: rest)).1.head? = some (otherSpeaker st.current)
      ↔ seg.start - prev.«end» > θ ∧ seg.start - st.lastChange > μ)
    ∧ (seg.start - prev.«end» > θ ∧ seg.start - st.lastChange > μ →
        detectAux θ μ st prev (seg :: rest)
          = (otherSpeaker st.current :: (detectAux θ μ ⟨otherSpeaker st.current, seg.start⟩ seg rest).1,
              seg.start :: (detectAux θ μ ⟨otherSpeaker st.current, seg.start⟩ seg rest).2))
    ∧ (¬(seg.start - prev.«end» > θ ∧ seg.start - st.lastChange > μ) →
        detectAux θ μ st prev (seg :: rest)
          = (st.current :: (detectAux θ μ st seg rest).1, (detectAux θ μ st seg rest).2))
    ∧ (0 ≤ θ → seg.start - prev.«end» < 0 →
        (detectAux θ μ st prev (seg :: rest)).1.head? = some st.current)
    ∧ detect_speaker_changes [⟨0, 2, ['A'], some (-1/5)⟩, ⟨5, 7, ['B'], some (-1/5)⟩] (12/10) 1
        = ["INTERVIEWER", "PARTICIPANT"] := by
  refine ⟨?_, ?_, ?_, ?_, ?_⟩
  · by_cases h : seg.start - prev.«end» > θ ∧ seg.start - st.lastChange > μ
    · simp [detectAux, if_pos h, h]
    · simp only [detectAux, if_neg h]
      simp only [List.head?_cons, Option.some_inj]
      constructor
      · intro hc; exact absurd hc.symm (otherSpeaker_ne st.current)
      · intro hc; exact absurd hc h
  · intro h; simp [detectAux, if_pos h]
  · intro h; simp [detectAux, if_neg h]
  · intro hθ hgap
    have h : ¬(seg.start - prev.«end» > θ ∧ seg.start - st.lastChange > μ) := by
      intro hc
      exact absurd (lt_trans hgap (lt_of_le_of_lt hθ hc.1)) (lt_irrefl _)
    simp [detectAux, if_neg h]
  · have hcond : (5 : ℚ) - 2 > 12/10 ∧ (5 : ℚ) - 0 > 1 := by norm_num
    simp [detect_speaker_changes, detectAux, otherSpeaker]
    norm_num

/-- Witness for `c5_flip_rule`: the flip-iff applied at scenario B's
data, and the negative-gap clause applied at overlapping segments. -/
theorem c5_witness :
    ((detectAux (12/10) 1 (⟨"INTERVIEWER", 0⟩ : DetectState) ⟨0, 2, ['A'], some (-1/5)⟩
        [⟨5, 7, ['B'], some (-1/5)⟩]).1.head? = some (otherSpeaker "INTERVIEWER"))
    ∧ ((detectAux 0 0 (⟨"INTERVIEWER", 0⟩ : DetectState) ⟨0, 5, [], none⟩
        [⟨4, 6, [], none⟩]).1.head? = some "INTERVIEWER") :=
  ⟨(c5_flip_rule (12/10) 1 ⟨"INTERVIEWER", 0⟩ ⟨0, 2, ['A'], some (-1/5)⟩
      ⟨5, 7, ['B'], some (-1/5)⟩ []).1.mpr (by norm_num),
   (c5_flip_rule 0 0 ⟨"INTERVIEWER", 0⟩ ⟨0, 5, [], none⟩ ⟨4, 6, [], none⟩ []).2.2.2.1
      (by norm_num) (by norm_num)⟩

/-- Claim C6: the attributor returns exactly one label per segment,
every label is one of the two fixed roles, and a non-empty input always
starts with INTERVIEWER, independent of the parameters. -/
theorem c6_labels_invariant (segments : List Segment) (θ μ : ℚ) :
    (detect_speaker_changes segments θ μ).length = segments.length
    ∧ (∀ lab ∈ detect_speaker_changes segments θ μ,
        lab = "INTERVIEWER" ∨ lab = "PARTICIPANT")
    ∧ (segments ≠ [] → (detect_speaker_changes segments θ μ).head? = some "INTERVIEWER") := by
  refine ⟨?_, ?_, ?_⟩
  · cases segments with
    | nil => rfl
    | cons s0 rest => simp [detect_speaker_changes, detectAux_length]
  · cases segments with
    | nil => intro lab hmem; simp [detect_speaker_changes] at hmem
    | cons s0 rest =>
      intro lab hmem
      simp only [detect_speaker_changes, List.mem_cons] at hmem
      rcases hmem with rfl | hmem
      · exact Or.inl rfl
      · exact detectAux_mem θ μ rest ⟨"INTERVIEWER", 0⟩ s0 (Or.inl rfl) lab hmem
  · intro hne
    cases segments with
    | nil => exact absurd rfl hne
    | cons s0 rest => rfl

/-- Witness for `c6_labels_invariant` at a concrete two-segment input,
discharging the membership and non-emptiness hypotheses. -/
theorem c6_witness :
    (detect_speaker_changes [⟨0, 1, [], none⟩, ⟨9, 10, [], none⟩] 2 3).length = 2
    ∧ ("INTERVIEWER" = "INTERVIEWER" ∨ "INTERVIEWER" = "PARTICIPANT")
    ∧ ((detect_speaker_changes [⟨0, 1, [], none⟩, ⟨9, 10, [], none⟩] 2 3).head?
        = some "INTERVIEWER") := by
  have h := c6_labels_invariant [⟨0, 1, [], none⟩, ⟨9, 10, [], none⟩] 2 3
  refine ⟨h.1, h.2.1 "INTERVIEWER" ?_, h.2.2 (by simp)⟩
  exact List.mem_cons_self _ _

/-- Claim C7: in any run of the attributor, the start times of the
segments that triggered consecutive speaker flips are strictly more
than `min_speaker_time` apart. -/
theorem c7_no_flip_too_soon (segments : List Segment) (θ μ : ℚ) :
    List.Chain' (fun a b => b - a > μ) (flipStarts segments θ μ) := by
  cases segments with
  | nil => simp [flipStarts]
  | cons s0 rest =>
    have h := detectAux_chain θ μ rest ⟨"INTERVIEWER", 0⟩ s0
    cases hF : (detectAux θ μ ⟨"INTERVIEWER", 0⟩ s0 rest).2 with
    | nil => simp [flipStarts, hF]
    | cons a l =>
      rw [hF] at h
      have h2 : List.Chain (fun a b => b - a > μ) a l := (List.chain_cons.mp h).2
      simp only [flipStarts]
      rw [hF]
      exact h2

/-- Claim C8: the pause list is exactly the adjacent gaps filtered to
the strictly positive ones — zero and negative gaps are excluded, not
clamped — and pause count and total pause time range over this filtered
list only; the zero-gap scenario is excluded entirely. -/
theorem c8_pause_filtering (segments : List Segment) :
    pauses segments = (adjacentGaps segments).filter (fun d => decide (0 < d))
    ∧ (∀ d : ℚ, d ∈ pauses segments ↔ d ∈ adjacentGaps segments ∧ 0 < d)
    ∧ total_pause_time segments
        = ((adjacentGaps segments).filter (fun d => decide (0 < d))).sum
    ∧ (pauses segments).length
        = ((adjacentGaps segments).filter (fun d => decide (0 < d))).length
    ∧ pauses [⟨0, 2, [], none⟩, ⟨2, 3, [], none⟩] = [] := by
  have hmain : pauses segments = (adjacentGaps segments).filter (fun d => decide (0 < d)) := by
    cases segments with
    | nil => rfl
    | cons s0 rest => simp [pauses, adjacentGaps, pausesAux_eq_filter rest s0]
  refine ⟨hmain, ?_, ?_, ?_, ?_⟩
  · intro dd
    rw [hmain]
    simp [List.mem_filter]
  · rw [total_pause_time, hmain]
  · rw [hmain]
  · norm_num [pauses, pausesAux]

/-- Claim C10: the speech-vs-pause ratio is not clamped: with audio
duration 1 and a pause list summing to 9, the computed ratio is −800,
which is negative. -/
theorem c10_ratio_not_clamped :
    (0 : ℚ) < 1
    ∧ total_pause_time [⟨0, 1, [], none⟩, ⟨10, 11, [], none⟩] = 9
    ∧ (1 : ℚ) < total_pause_time [⟨0, 1, [], none⟩, ⟨10, 11, [], none⟩]
    ∧ speech_vs_pause_ratio 1 [⟨0, 1, [], none⟩, ⟨10, 11, [], none⟩] = -800
    ∧ speech_vs_pause_ratio 1 [⟨0, 1, [], none⟩, ⟨10, 11, [], none⟩] < 0 := by
  have hp : total_pause_time [(⟨0, 1, [], none⟩ : Segment), ⟨10, 11, [], none⟩] = 9 := by
    norm_num [total_pause_time, pauses, pausesAux]
  have hr : speech_vs_pause_ratio 1 [(⟨0, 1, [], none⟩ : Segment), ⟨10, 11, [], none⟩] = -800 := by
    rw [speech_vs_pause_ratio, if_pos (by norm_num), hp]
    norm_num [pyRound1, roundHalfEven]
  exact ⟨by norm_num, hp, by rw [hp]; norm_num, hr, by rw [hr]; norm_num⟩

end DStt

namespace DStt

/-! ### Helper lemmas for the formatting utilities -/

lemma pyMod_nonneg (a b : ℚ) (hb : 0 < b) : 0 ≤ pyMod a b := by
  rw [pyMod, pyFloorDiv]
  have h1 : (⌊a / b⌋ : ℚ) ≤ a / b := Int.floor_le _
  have h2 : b * (a / b) = a := by field_simp
  have h3 : b * (⌊a / b⌋ : ℚ) ≤ b * (a / b) := mul_le_mul_of_nonneg_left h1 hb.le
  linarith

/-- Claim C9: for non-negative input, `format_timestamp` renders
`floor(s/60)` and `floor(s mod 60)` zero-padded and `":"`-joined, and
`format_duration` renders `"HH:MM:SS"` when `floor(s/3600) > 0`, else
`"MM:SS"`, under the same truncation-toward-zero rule. -/
theorem c9_formats_match_claim (s : ℚ) (hs : 0 ≤ s) :
    format_timestamp s = format_timestamp_claimed s
    ∧ format_duration s = format_duration_claimed s := by
  have h60 : (0 : ℚ) < 60 := by norm_num
  have h3600 : (0 : ℚ) < 3600 := by norm_num
  have hq60 : (0 : ℚ) ≤ (⌊s / 60⌋ : ℚ) := by
    exact_mod_cast Int.floor_nonneg.mpr (div_nonneg hs h60.le)
  have hq3600 : (0 : ℚ) ≤ (⌊s / 3600⌋ : ℚ) := by
    exact_mod_cast Int.floor_nonneg.mpr (div_nonneg hs h3600.le)
  have hfd60 : pyInt (pyFloorDiv s 60) = ⌊s / 60⌋ := by
    rw [pyFloorDiv, pyInt, if_pos hq60, Int.floor_intCast]
  have hmod60 : pyInt (pyMod s 60) = ⌊s - 60 * (⌊s / 60⌋ : ℚ)⌋ := by
    rw [pyInt, if_pos (pyMod_nonneg s 60 h60), pyMod, pyFloorDiv]
  have hfd3600 : pyInt (pyFloorDiv s 3600) = ⌊s / 3600⌋ := by
    rw [pyFloorDiv, pyInt, if_pos hq3600, Int.floor_intCast]
  have hm3600 : pyMod s 3600 = s - 3600 * (⌊s / 3600⌋ : ℚ) := by
    rw [pyMod, pyFloorDiv]
  have hqmin : (0 : ℚ) ≤ (⌊pyMod s 3600 / 60⌋ : ℚ) := by
    exact_mod_cast Int.floor_nonneg.mpr (div_nonneg (pyMod_nonneg s 3600 h3600) h60.le)
  have hmin : pyInt (pyFloorDiv (pyMod s 3600) 60) = ⌊(s - 3600 * (⌊s / 3600⌋ : ℚ)) / 60⌋ := by
    rw [pyFloorDiv, pyInt, if_pos hqmin, Int.floor_intCast, hm3600]
  constructor
  · rw [format_timestamp, format_timestamp_claimed, hfd60, hmod60]
  · rw [format_duration, format_duration_claimed]
    simp only [hfd3600, hmin, hmod60]
    by_cases hh : ⌊s / 3600⌋ > 0
    · rw [if_pos hh, if_pos hh]
    · rw [if_neg hh, if_neg hh]
      have h0 : ⌊s / 3600⌋ = 0 :=
        le_antisymm (not_lt.mp hh) (Int.floor_nonneg.mpr (div_nonneg hs h3600.le))
      rw [format_timestamp_claimed, h0]
      norm_num

/-- Witness for `c9_formats_match_claim` at `s = 3725` (1:02:05). -/
theorem c9_witness :
    (0 : ℚ) ≤ 3725
    ∧ format_timestamp 3725 = format_timestamp_claimed 3725
    ∧ format_duration 3725 = format_duration_claimed 3725 :=
  ⟨by norm_num, (c9_formats_match_claim 3725 (by norm_num)).1,
    (c9_formats_match_claim 3725 (by norm_num)).2⟩

end DStt

namespace DStt

/-! ### Unfolding equations for the text scanners -/

lemma replaceDots_cons3 (a b c : Char) (r : List Char) :
    replaceDots (a :: b :: c :: r)
      = if a = '.' ∧ b = '.' ∧ c = '.' then pauseMarker ++ replaceDots r
        else a :: replaceDots (b :: c :: r) := rfl

lemma replaceDots_nil : replaceDots [] = [] := rfl

lemma replaceDots_one (a : Char) : replaceDots [a] = [a] := rfl

lemma replaceDots_two (a b : Char) : replaceDots [a, b] = [a, b] := rfl

lemma collapseTwoSpaces_cons2 (a b : Char) (r : List Char) :
    collapseTwoSpaces (a :: b :: r)
      = if a = ' ' ∧ b = ' ' then ' ' :: collapseTwoSpaces r
        else a :: collapseTwoSpaces (b :: r) := rfl

lemma collapseTwoSpaces_nil : collapseTwoSpaces [] = [] := rfl

lemma collapseTwoSpaces_one (a : Char) : collapseTwoSpaces [a] = [a] := rfl

lemma hasTriple_cons3 (a b c : Char) (r : List Char) :
    hasTriple (a :: b :: c :: r)
      = if a = '.' ∧ b = '.' ∧ c = '.' then true else hasTriple (b :: c :: r) := rfl

lemma hasDoubleSpace_cons2 (a b : Char) (r : List Char) :
    hasDoubleSpace (a :: b :: r)
      = if a = ' ' ∧ b = ' ' then true else hasDoubleSpace (b :: r) := rfl

/-! ### Basic facts about the triple-dot scanner -/

lemma hasTriple_short (l : List Char) (h : l.length ≤ 2) : hasTriple l = false := by
  cases l with
  | nil => rfl
  | cons a l1 =>
    cases l1 with
    | nil => rfl
    | cons b l2 =>
      cases l2 with
      | nil => rfl
      | cons c r => simp [List.length_cons] at h

lemma hasTriple_cons_false {a : Char} {l : List Char} (h : hasTriple (a :: l) = false) :
    hasTriple l = false := by
  cases l with
  | nil => rfl
  | cons b l1 =>
    cases l1 with
    | nil => rfl
    | cons c r =>
      rw [hasTriple_cons3] at h
      by_cases hd : a = '.' ∧ b = '.' ∧ c = '.'
      · rw [if_pos hd] at h; exact absurd h (by simp)
      · rwa [if_neg hd] at h

lemma hasTriple_cons_ne (a : Char) (l : List Char) (ha : a ≠ '.') :
    hasTriple (a :: l) = hasTriple l := by
  cases l with
  | nil => rfl
  | cons b l1 =>
    cases l1 with
    | nil => rfl
    | cons c r =>
      rw [hasTriple_cons3, if_neg (fun hd => ha hd.1)]

lemma hasTriple_append_right {l₁ l₂ : List Char} (h : hasTriple (l₁ ++ l₂) = false) :
    hasTriple l₂ = false := by
  induction l₁ with
  | nil => exact h
  | cons a l ih =>
    rw [List.cons_append] at h
    exact ih (hasTriple_cons_false h)

lemma hasTriple_pause_append (l : List Char) :
    hasTriple (pauseMarker ++ l) = hasTriple l := by
  show hasTriple ('[' :: 'P' :: 'A' :: 'U' :: 'S' :: 'E' :: ']' :: l) = hasTriple l
  rw [hasTriple_cons_ne _ _ (by decide), hasTriple_cons_ne _ _ (by decide),
    hasTriple_cons_ne _ _ (by decide), hasTriple_cons_ne _ _ (by decide),
    hasTriple_cons_ne _ _ (by decide), hasTriple_cons_ne _ _ (by decide),
    hasTriple_cons_ne _ _ (by decide)]

lemma hasTriple_dot_cons_safe (o : List Char) (h : hasTriple o = false)
    (hho : ∀ x, o.head? = some x → x ≠ '.') : hasTriple ('.' :: o) = false := by
  cases o with
  | nil => rfl
  | cons x xs =>
    have hx : x ≠ '.' := hho x rfl
    cases xs with
    | nil => rfl
    | cons y ys =>
      rw [hasTriple_cons3, if_neg (fun hd => hx hd.2.1)]
      exact h

lemma hasTriple_two_dots_safe (o : List Char) (h : hasTriple o = false)
    (hho : ∀ x, o.head? = some x → x ≠ '.') : hasTriple ('.' :: '.' :: o) = false := by
  cases o with
  | nil => rfl
  | cons x xs =>
    have hx : x ≠ '.' := hho x rfl
    rw [hasTriple_cons3, if_neg (fun hd => hx hd.2.2)]
    exact hasTriple_dot_cons_safe (x :: xs) h
      (fun y hy => by
        rw [List.head?_cons, Option.some_inj] at hy
        rw [← hy]; exact hx)

/-! ### Basic facts about the double-space scanner -/

lemma hasDoubleSpace_short (l : List Char) (h : l.length ≤ 1) : hasDoubleSpace l = false := by
  cases l with
  | nil => rfl
  | cons a l1 =>
    cases l1 with
    | nil => rfl
    | cons b r => simp [List.length_cons] at h

lemma hasDoubleSpace_cons_false {a : Char} {l : List Char}
    (h : hasDoubleSpace (a :: l) = false) : hasDoubleSpace l = false := by
  cases l with
  | nil => rfl
  | cons b r =>
    rw [hasDoubleSpace_cons2] at h
    by_cases hd : a = ' ' ∧ b = ' '
    · rw [if_pos hd] at h; exact absurd h (by simp)
    · rwa [if_neg hd] at h

lemma hasDoubleSpace_cons_ne (a : Char) (l : List Char) (ha : a ≠ ' ') :
    hasDoubleSpace (a :: l) = hasDoubleSpace l := by
  cases l with
  | nil => rfl
  | cons b r => rw [hasDoubleSpace_cons2, if_neg (fun hd => ha hd.1)]

end DStt

namespace DStt

/-! ### Structural lemmas about `replaceDots` -/

lemma replaceDots_ne_nil {t : List Char} (h : t ≠ []) : replaceDots t ≠ [] := by
  cases t with
  | nil => exact absurd rfl h
  | cons a t1 =>
    cases t1 with
    | nil => simp [replaceDots_one]
    | cons b t2 =>
      cases t2 with
      | nil => simp [replaceDots_two]
      | cons c r =>
        rw [replaceDots_cons3]
        by_cases hd : a = '.' ∧ b = '.' ∧ c = '.'
        · rw [if_pos hd]; simp [pauseMarker]
        · rw [if_neg hd]; simp

lemma rd_head (a : Char) (t : List Char) :
    ∃ h', (replaceDots (a :: t)).head? = some h' ∧ (h' = a ∨ h' = '[') := by
  cases t with
  | nil => exact ⟨a, rfl, Or.inl rfl⟩
  | cons b t1 =>
    cases t1 with
    | nil => exact ⟨a, rfl, Or.inl rfl⟩
    | cons c r =>
      by_cases hd : a = '.' ∧ b = '.' ∧ c = '.'
      · exact ⟨'[', by rw [replaceDots_cons3, if_pos hd]; rfl, Or.inr rfl⟩
      · exact ⟨a, by rw [replaceDots_cons3, if_neg hd]; rfl, Or.inl rfl⟩

lemma rd_cons_ne {a : Char} (t : List Char) (ha : a ≠ '.') :
    replaceDots (a :: t) = a :: replaceDots t := by
  cases t with
  | nil => rfl
  | cons b t1 =>
    cases t1 with
    | nil => rfl
    | cons c r => rw [replaceDots_cons3, if_neg (fun hd => ha hd.1)]

lemma rd_length (t : List Char) : t.length ≤ (replaceDots t).length := by
  induction t using replaceDots.induct with
  | case1 a b c rest hd ih =>
    rw [replaceDots_cons3, if_pos hd]
    simp only [List.length_cons, List.length_append, pauseMarker, List.length_cons,
      List.length_nil]
    omega
  | case2 a b c rest hd ih =>
    rw [replaceDots_cons3, if_neg hd]
    simp only [List.length_cons] at ih ⊢
    omega
  | case3 s h =>
    rcases s with _ | ⟨a, _ | ⟨b, _ | ⟨c, r⟩⟩⟩
    · simp [replaceDots_nil]
    · simp [replaceDots_one]
    · simp [replaceDots_two]
    · exact absurd rfl (h a b c r)

lemma hasTriple_replaceDots (s : List Char) : hasTriple (replaceDots s) = false := by
  induction s using replaceDots.induct with
  | case1 a b c rest hd ih =>
    rw [replaceDots_cons3, if_pos hd, hasTriple_pause_append]
    exact ih
  | case2 a b c rest hd ih =>
    rw [replaceDots_cons3, if_neg hd]
    by_cases ha : a = '.'
    · subst ha
      by_cases hb : b = '.'
      · subst hb
        have hc : c ≠ '.' := fun hcc => hd ⟨rfl, rfl, hcc⟩
        cases rest with
        | nil =>
          rw [replaceDots_two, hasTriple_cons3, if_neg (fun hdd => hc hdd.2.2)]
          exact hasTriple_short _ (by simp)
        | cons d r2 =>
          rw [replaceDots_cons3, if_neg (fun hdd => hc hdd.2.1)]
          have ih2 : hasTriple (replaceDots (c :: d :: r2)) = false := by
            rw [replaceDots_cons3, if_neg (fun hdd => hc hdd.2.1)] at ih
            exact hasTriple_cons_false ih
          obtain ⟨h', hh, hor⟩ := rd_head c (d :: r2)
          have hne : h' ≠ '.' := by
            rcases hor with rfl | rfl
            · exact hc
            · decide
          exact hasTriple_two_dots_safe _ ih2
            (fun x hx => by
              have hxx : h' = x := Option.some_inj.mp (hh.symm.trans hx)
              rw [← hxx]; exact hne)
      · obtain ⟨h', hh, hor⟩ := rd_head b (c :: rest)
        have hne : h' ≠ '.' := by
          rcases hor with rfl | rfl
          · exact hb
          · decide
        exact hasTriple_dot_cons_safe _ ih
          (fun x hx => by
            have hxx : h' = x := Option.some_inj.mp (hh.symm.trans hx)
            rw [← hxx]; exact hne)
    · rw [hasTriple_cons_ne _ _ ha]; exact ih
  | case3 s h =>
    rcases s with _ | ⟨a, _ | ⟨b, _ | ⟨c, r⟩⟩⟩
    · rfl
    · rfl
    · rfl
    · exact absurd rfl (h a b c r)

lemma replaceDots_eq_self : ∀ {t : List Char}, hasTriple t = false → replaceDots t = t := by
  intro t
  induction t using replaceDots.induct with
  | case1 a b c rest hd ih =>
    intro h
    rw [hasTriple_cons3, if_pos hd] at h
    exact absurd h (by simp)
  | case2 a b c rest hd ih =>
    intro h
    rw [hasTriple_cons3, if_neg hd] at h
    rw [replaceDots_cons3, if_neg hd, ih h]
  | case3 s hh =>
    intro h
    rcases s with _ | ⟨a, _ | ⟨b, _ | ⟨c, r⟩⟩⟩
    · rfl
    · rfl
    · rfl
    · exact absurd rfl (hh a b c r)

end DStt

namespace DStt

/-! ### Structural lemmas about `collapseTwoSpaces` -/

lemma collapse_ne_nil {t : List Char} (h : t ≠ []) : collapseTwoSpaces t ≠ [] := by
  cases t with
  | nil => exact absurd rfl h
  | cons a t1 =>
    cases t1 with
    | nil => simp [collapseTwoSpaces_one]
    | cons b r =>
      rw [collapseTwoSpaces_cons2]
      by_cases hd : a = ' ' ∧ b = ' '
      · rw [if_pos hd]; simp
      · rw [if_neg hd]; simp

lemma collapse_head (x : Char) (l : List Char) :
    (collapseTwoSpaces (x :: l)).head? = some x := by
  cases l with
  | nil => rfl
  | cons b r =>
    rw [collapseTwoSpaces_cons2]
    by_cases hd : x = ' ' ∧ b = ' '
    · rw [if_pos hd, hd.1]; rfl
    · rw [if_neg hd]; rfl

lemma collapse_eq_self : ∀ {t : List Char}, hasDoubleSpace t = false → collapseTwoSpaces t = t := by
  intro t
  induction t using collapseTwoSpaces.induct with
  | case1 a b rest hd ih =>
    intro h
    rw [hasDoubleSpace_cons2, if_pos hd] at h
    exact absurd h (by simp)
  | case2 a b rest hd ih =>
    intro h
    rw [hasDoubleSpace_cons2, if_neg hd] at h
    rw [collapseTwoSpaces_cons2, if_neg hd, ih h]
  | case3 s hh =>
    intro h
    rcases s with _ | ⟨a, _ | ⟨b, r⟩⟩
    · rfl
    · rfl
    · exact absurd rfl (hh a b r)

lemma hasTriple_collapse : ∀ {t : List Char}, hasTriple t = false →
    hasTriple (collapseTwoSpaces t) = false := by
  intro t
  induction t using collapseTwoSpaces.induct with
  | case1 a b rest hd ih =>
    intro h
    rw [collapseTwoSpaces_cons2, if_pos hd]
    rw [hasTriple_cons_ne _ _ (by decide)]
    exact ih (hasTriple_cons_false (hasTriple_cons_false h))
  | case2 a b rest hd ih =>
    intro h
    rw [collapseTwoSpaces_cons2, if_neg hd]
    have ih2 := ih (hasTriple_cons_false h)
    by_cases ha : a = '.'
    · subst ha
      by_cases hb : b = '.'
      · subst hb
        cases rest with
        | nil => rfl
        | cons d r2 =>
          have hd2 : d ≠ '.' := by
            intro hdd
            rw [hasTriple_cons3, if_pos ⟨rfl, rfl, hdd⟩] at h
            exact absurd h (by simp)
          rw [collapseTwoSpaces_cons2, if_neg (fun hdd => absurd hdd.1 (by decide))]
          rw [collapseTwoSpaces_cons2, if_neg (fun hdd => absurd hdd.1 (by decide))] at ih2
          have ih3 := hasTriple_cons_false ih2
          have hh := collapse_head d r2
          exact hasTriple_two_dots_safe _ ih3
            (fun x hx => by
              have hxx : d = x := Option.some_inj.mp (hh.symm.trans hx)
              rw [← hxx]; exact hd2)
      · have hh := collapse_head b rest
        exact hasTriple_dot_cons_safe _ ih2
          (fun x hx => by
            have hxx : b = x := Option.some_inj.mp (hh.symm.trans hx)
            rw [← hxx]; exact hb)
    · rw [hasTriple_cons_ne _ _ ha]; exact ih2
  | case3 s hh =>
    intro h
    rcases s with _ | ⟨a, _ | ⟨b, r⟩⟩
    · rfl
    · rfl
    · exact absurd rfl (hh a b r)

lemma collapse_getLast : ∀ {t : List Char} (c : Char), t.getLast? = some c → c ≠ ' ' →
    (collapseTwoSpaces t).getLast? = some c := by
  intro t
  induction t using collapseTwoSpaces.induct with
  | case1 a b rest hd ih =>
    intro c hlast hc
    cases rest with
    | nil =>
      rw [List.getLast?_cons_cons, List.getLast?_singleton, Option.some_inj] at hlast
      exact absurd (hlast ▸ hd.2) hc
    | cons d r2 =>
      rw [collapseTwoSpaces_cons2, if_pos hd]
      rw [List.getLast?_cons_cons, List.getLast?_cons_cons] at hlast
      have hrec := ih c hlast hc
      cases hcl : collapseTwoSpaces (d :: r2) with
      | nil => exact absurd hcl (collapse_ne_nil (by simp))
      | cons x xs =>
        rw [hcl] at hrec
        rw [List.getLast?_cons_cons]
        exact hrec
  | case2 a b rest hd ih =>
    intro c hlast hc
    rw [collapseTwoSpaces_cons2, if_neg hd]
    rw [List.getLast?_cons_cons] at hlast
    have hrec := ih c hlast hc
    cases hcl : collapseTwoSpaces (b :: rest) with
    | nil => exact absurd hcl (collapse_ne_nil (by simp))
    | cons x xs =>
      rw [hcl] at hrec
      rw [List.getLast?_cons_cons]
      exact hrec
  | case3 s hh =>
    intro c hlast hc
    rcases s with _ | ⟨a, _ | ⟨b, r⟩⟩
    · exact hlast
    · exact hlast
    · exact absurd rfl (hh a b r)

lemma collapse_length_ge_two : ∀ {t : List Char} (c : Char), t.getLast? = some c → c ≠ ' ' →
    2 ≤ t.length → 2 ≤ (collapseTwoSpaces t).length := by
  intro t
  induction t using collapseTwoSpaces.induct with
  | case1 a b rest hd ih =>
    intro c hlast hc hlen
    cases rest with
    | nil =>
      rw [List.getLast?_cons_cons, List.getLast?_singleton, Option.some_inj] at hlast
      exact absurd (hlast ▸ hd.2) hc
    | cons d r2 =>
      rw [collapseTwoSpaces_cons2, if_pos hd]
      simp only [List.length_cons]
      have h1 : collapseTwoSpaces (d :: r2) ≠ [] := collapse_ne_nil (by simp)
      have h2 : 0 < (collapseTwoSpaces (d :: r2)).length := List.length_pos.mpr h1
      omega
  | case2 a b rest hd ih =>
    intro c hlast hc hlen
    rw [collapseTwoSpaces_cons2, if_neg hd]
    simp only [List.length_cons]
    have h1 : collapseTwoSpaces (b :: rest) ≠ [] := collapse_ne_nil (by simp)
    have h2 : 0 < (collapseTwoSpaces (b :: rest)).length := List.length_pos.mpr h1
    omega
  | case3 s hh =>
    intro c hlast hc hlen
    rcases s with _ | ⟨a, _ | ⟨b, r⟩⟩
    · simp at hlen
    · simp at hlen
    · exact absurd rfl (hh a b r)

lemma collapse_all_ws : ∀ {t : List Char}, (∀ c ∈ t, pyIsSpaceChar c = true) →
    ∀ c ∈ collapseTwoSpaces t, pyIsSpaceChar c = true := by
  intro t
  induction t using collapseTwoSpaces.induct with
  | case1 a b rest hd ih =>
    intro h c hc
    rw [collapseTwoSpaces_cons2, if_pos hd] at hc
    rcases List.mem_cons.mp hc with rfl | hc2
    · decide
    · exact ih (fun x hx => h x (List.mem_cons_of_mem a (List.mem_cons_of_mem b hx))) c hc2
  | case2 a b rest hd ih =>
    intro h c hc
    rw [collapseTwoSpaces_cons2, if_neg hd] at hc
    rcases List.mem_cons.mp hc with rfl | hc2
    · exact h _ (List.mem_cons_self _ _)
    · exact ih (fun x hx => h x (List.mem_cons_of_mem a hx)) c hc2
  | case3 s hh =>
    intro h c hc
    rcases s with _ | ⟨a, _ | ⟨b, r⟩⟩
    · rw [collapseTwoSpaces_nil] at hc
      simp at hc
    · rw [collapseTwoSpaces_one] at hc
      exact h c hc
    · exact absurd rfl (hh a b r)

lemma collapse_append_head : ∀ (p : List Char) (q : List Char),
    (∀ x, q.head? = some x → x ≠ ' ') →
    collapseTwoSpaces (p ++ q) = collapseTwoSpaces p ++ collapseTwoSpaces q := by
  intro p
  induction p using collapseTwoSpaces.induct with
  | case1 a b rest hd ih =>
    intro q hq
    show collapseTwoSpaces (a :: b :: (rest ++ q))
      = collapseTwoSpaces (a :: b :: rest) ++ collapseTwoSpaces q
    rw [collapseTwoSpaces_cons2, if_pos hd, collapseTwoSpaces_cons2, if_pos hd,
      ih q hq, List.cons_append]
  | case2 a b rest hd ih =>
    intro q hq
    show collapseTwoSpaces (a :: b :: (rest ++ q))
      = collapseTwoSpaces (a :: b :: rest) ++ collapseTwoSpaces q
    rw [collapseTwoSpaces_cons2, if_neg hd, collapseTwoSpaces_cons2, if_neg hd,
      List.cons_append]
    exact congrArg (List.cons a) (ih q hq)
  | case3 s hh =>
    intro q hq
    rcases s with _ | ⟨a, _ | ⟨b, r⟩⟩
    · simp [collapseTwoSpaces_nil]
    · cases q with
      | nil => simp [collapseTwoSpaces_one, collapseTwoSpaces_nil]
      | cons y ys =>
        have hy : y ≠ ' ' := hq y rfl
        show collapseTwoSpaces (a :: y :: ys) = collapseTwoSpaces [a] ++ collapseTwoSpaces (y :: ys)
        rw [collapseTwoSpaces_cons2, if_neg (fun hdd => hy hdd.2), collapseTwoSpaces_one]
        rfl
    · exact absurd rfl (hh a b r)

lemma collapse_append_last : ∀ (p : List Char) (q : List Char),
    (∀ c, p.getLast? = some c → c ≠ ' ') →
    collapseTwoSpaces (p ++ q) = collapseTwoSpaces p ++ collapseTwoSpaces q := by
  intro p
  induction p using collapseTwoSpaces.induct with
  | case1 a b rest hd ih =>
    intro q hp
    cases rest with
    | nil =>
      have hb := hp b (by rw [List.getLast?_cons_cons, List.getLast?_singleton])
      exact absurd hd.2 hb
    | cons d r2 =>
      show collapseTwoSpaces (a :: b :: ((d :: r2) ++ q))
        = collapseTwoSpaces (a :: b :: d :: r2) ++ collapseTwoSpaces q
      rw [collapseTwoSpaces_cons2, if_pos hd, collapseTwoSpaces_cons2, if_pos hd,
        ih q (fun c hcc => hp c (by
          rw [List.getLast?_cons_cons, List.getLast?_cons_cons]; exact hcc)),
        List.cons_append]
  | case2 a b rest hd ih =>
    intro q hp
    show collapseTwoSpaces (a :: b :: (rest ++ q))
      = collapseTwoSpaces (a :: b :: rest) ++ collapseTwoSpaces q
    rw [collapseTwoSpaces_cons2, if_neg hd, collapseTwoSpaces_cons2, if_neg hd,
      List.cons_append]
    exact congrArg (List.cons a)
      (ih q (fun c hcc => hp c (by rw [List.getLast?_cons_cons]; exact hcc)))
  | case3 s hh =>
    intro q hp
    rcases s with _ | ⟨a, _ | ⟨b, r⟩⟩
    · simp [collapseTwoSpaces_nil]
    · have ha : a ≠ ' ' := hp a (by simp)
      cases q with
      | nil => simp [collapseTwoSpaces_one, collapseTwoSpaces_nil]
      | cons y ys =>
        show collapseTwoSpaces (a :: y :: ys) = collapseTwoSpaces [a] ++ collapseTwoSpaces (y :: ys)
        rw [collapseTwoSpaces_cons2, if_neg (fun hdd => ha hdd.1), collapseTwoSpaces_one]
        rfl
    · exact absurd rfl (hh a b r)

/-! ### Append lemmas about `replaceDots` -/

lemma rd_append_left (w t : List Char) (hw : ∀ c ∈ w, c ≠ '.') :
    replaceDots (w ++ t) = w ++ replaceDots t := by
  induction w with
  | nil => rfl
  | cons a w ih =>
    rw [List.cons_append, rd_cons_ne _ (hw a (List.mem_cons_self a w)),
      ih (fun c hc => hw c (List.mem_cons_of_mem a hc)), List.cons_append]

lemma rd_all_nodot (w : List Char) (hw : ∀ c ∈ w, c ≠ '.') : replaceDots w = w := by
  simpa [replaceDots_nil] using rd_append_left w [] hw

lemma rd_append_right : ∀ (u : List Char) (w : List Char), (∀ c ∈ w, c ≠ '.') →
    replaceDots (u ++ w) = replaceDots u ++ w := by
  intro u
  induction u using replaceDots.induct with
  | case1 a b c rest hd ih =>
    intro w hw
    calc replaceDots ((a :: b :: c :: rest) ++ w)
        = pauseMarker ++ replaceDots (rest ++ w) := by
          rw [show (a :: b :: c :: rest) ++ w = a :: b :: c :: (rest ++ w) from rfl,
            replaceDots_cons3, if_pos hd]
      _ = pauseMarker ++ (replaceDots rest ++ w) := by rw [ih w hw]
      _ = (pauseMarker ++ replaceDots rest) ++ w := (List.append_assoc _ _ _).symm
      _ = replaceDots (a :: b :: c :: rest) ++ w := by rw [replaceDots_cons3, if_pos hd]
  | case2 a b c rest hd ih =>
    intro w hw
    calc replaceDots ((a :: b :: c :: rest) ++ w)
        = a :: replaceDots ((b :: c :: rest) ++ w) := by
          rw [show (a :: b :: c :: rest) ++ w = a :: b :: c :: (rest ++ w) from rfl,
            replaceDots_cons3, if_neg hd]
          rfl
      _ = a :: (replaceDots (b :: c :: rest) ++ w) := by rw [ih w hw]
      _ = (a :: replaceDots (b :: c :: rest)) ++ w := rfl
      _ = replaceDots (a :: b :: c :: rest) ++ w := by rw [replaceDots_cons3, if_neg hd]
  | case3 s hh =>
    intro w hw
    rcases s with _ | ⟨a, _ | ⟨b, _ | ⟨c, r⟩⟩⟩
    · simp [replaceDots_nil, rd_all_nodot w hw]
    · cases w with
      | nil => simp [replaceDots_one]
      | cons y ys =>
        have hy : y ≠ '.' := hw y (List.mem_cons_self y ys)
        cases ys with
        | nil => simp [replaceDots_two, replaceDots_one]
        | cons z zs =>
          rw [show [a] ++ (y :: z :: zs) = a :: y :: z :: zs from rfl,
            replaceDots_cons3, if_neg (fun hdd => hy hdd.2.1), replaceDots_one,
            rd_all_nodot _ hw]
          rfl
    · cases w with
      | nil => simp [replaceDots_two]
      | cons y ys =>
        have hy : y ≠ '.' := hw y (List.mem_cons_self y ys)
        rw [show (a :: b :: []) ++ (y :: ys) = a :: b :: y :: ys from rfl,
          replaceDots_cons3, if_neg (fun hdd => hy hdd.2.2), replaceDots_two]
        cases ys with
        | nil =>
          rw [replaceDots_two]
          rfl
        | cons z zs =>
          rw [replaceDots_cons3, if_neg (fun hdd => hy hdd.2.1), rd_all_nodot _ hw]
          rfl
    · exact absurd rfl (hh a b c r)

lemma rd_getLast : ∀ (t : List Char) (c : Char), t.getLast? = some c →
    ((replaceDots t).getLast? = some c ∨ (replaceDots t).getLast? = some ']') := by
  intro t
  induction t using replaceDots.induct with
  | case1 a b c2 rest hd ih =>
    intro c hlast
    rw [replaceDots_cons3, if_pos hd]
    cases rest with
    | nil => right; decide
    | cons d r2 =>
      have hlast2 : (d :: r2).getLast? = some c := by
        rw [List.getLast?_cons_cons, List.getLast?_cons_cons, List.getLast?_cons_cons] at hlast
        exact hlast
      have hne : replaceDots (d :: r2) ≠ [] := replaceDots_ne_nil (by simp)
      cases hX : replaceDots (d :: r2) with
      | nil => exact absurd hX hne
      | cons x xs =>
        have := ih c hlast2
        rw [hX] at this
        rw [List.getLast?_append_cons]
        exact this
  | case2 a b c2 rest hd ih =>
    intro c hlast
    rw [replaceDots_cons3, if_neg hd]
    have hlast2 : (b :: c2 :: rest).getLast? = some c := by
      rw [List.getLast?_cons_cons] at hlast
      exact hlast
    have hne : replaceDots (b :: c2 :: rest) ≠ [] := replaceDots_ne_nil (by simp)
    cases hX : replaceDots (b :: c2 :: rest) with
    | nil => exact absurd hX hne
    | cons x xs =>
      have := ih c hlast2
      rw [hX] at this
      rw [List.getLast?_cons_cons]
      exact this
  | case3 s hh =>
    intro c hlast
    rcases s with _ | ⟨a, _ | ⟨b, _ | ⟨c2, r⟩⟩⟩
    · exact Or.inl hlast
    · exact Or.inl hlast
    · exact Or.inl hlast
    · exact absurd rfl (hh a b c2 r)

end DStt

namespace DStt

/-! ### Structural lemmas about `pyStrip` -/

lemma ne_space_of_ws_false {c : Char} (h : pyIsSpaceChar c = false) : c ≠ ' ' := by
  intro hc
  rw [hc] at h
  exact absurd h (by decide)

lemma ne_dot_of_ws_true {c : Char} (h : pyIsSpaceChar c = true) : c ≠ '.' := by
  intro hc
  rw [hc] at h
  exact absurd h (by decide)

lemma head?_dropWhile_eq_false (p : Char → Bool) (l : List Char) (a : Char)
    (h : (l.dropWhile p).head? = some a) : p a = false := by
  induction l with
  | nil => simp at h
  | cons b l ih =>
    rw [List.dropWhile_cons] at h
    by_cases hb : p b
    · rw [if_pos hb] at h
      exact ih h
    · rw [if_neg hb] at h
      rw [List.head?_cons, Option.some_inj] at h
      rw [← h]
      simpa using hb

lemma dropWhile_append_all (p : Char → Bool) (w l : List Char) (hw : ∀ c ∈ w, p c = true) :
    (w ++ l).dropWhile p = l.dropWhile p := by
  induction w with
  | nil => rfl
  | cons a w ih =>
    rw [List.cons_append, List.dropWhile_cons, if_pos (hw a (List.mem_cons_self a w))]
    exact ih (fun c hc => hw c (List.mem_cons_of_mem a hc))

lemma rev_split (A : List Char) :
    A = (A.reverse.dropWhile pyIsSpaceChar).reverse
        ++ (A.reverse.takeWhile pyIsSpaceChar).reverse := by
  calc A = A.reverse.reverse := (List.reverse_reverse A).symm
    _ = (A.reverse.takeWhile pyIsSpaceChar ++ A.reverse.dropWhile pyIsSpaceChar).reverse := by
        rw [List.takeWhile_append_dropWhile]
    _ = (A.reverse.dropWhile pyIsSpaceChar).reverse
          ++ (A.reverse.takeWhile pyIsSpaceChar).reverse := by rw [List.reverse_append]

lemma dropWhile_pyStrip_decomp (s : List Char) :
    s.dropWhile pyIsSpaceChar
      = pyStrip s ++ ((s.dropWhile pyIsSpaceChar).reverse.takeWhile pyIsSpaceChar).reverse :=
  rev_split (s.dropWhile pyIsSpaceChar)

lemma pyStrip_decomp (s : List Char) :
    ∃ w1 w2, s = w1 ++ pyStrip s ++ w2
      ∧ (∀ c ∈ w1, pyIsSpaceChar c = true) ∧ (∀ c ∈ w2, pyIsSpaceChar c = true) := by
  refine ⟨s.takeWhile pyIsSpaceChar,
    ((s.dropWhile pyIsSpaceChar).reverse.takeWhile pyIsSpaceChar).reverse, ?_, ?_, ?_⟩
  · conv_lhs => rw [← List.takeWhile_append_dropWhile pyIsSpaceChar s,
      dropWhile_pyStrip_decomp s]
    rw [List.append_assoc]
  · exact fun c hc => List.mem_takeWhile_imp hc
  · intro c hc
    rw [List.mem_reverse] at hc
    exact List.mem_takeWhile_imp hc

lemma pyStrip_head (s : List Char) (a : Char) (t : List Char) (h : pyStrip s = a :: t) :
    pyIsSpaceChar a = false := by
  have hd := dropWhile_pyStrip_decomp s
  rw [h] at hd
  apply head?_dropWhile_eq_false pyIsSpaceChar s a
  rw [hd]
  rfl

lemma pyStrip_getLast (s : List Char) (c : Char) (h : (pyStrip s).getLast? = some c) :
    pyIsSpaceChar c = false := by
  have h2 : (pyStrip s).reverse = (s.dropWhile pyIsSpaceChar).reverse.dropWhile pyIsSpaceChar := by
    rw [pyStrip, List.reverse_reverse]
  apply head?_dropWhile_eq_false pyIsSpaceChar (s.dropWhile pyIsSpaceChar).reverse c
  rw [← h2, List.head?_reverse]
  exact h

lemma pyStrip_idem (s : List Char) : pyStrip (pyStrip s) = pyStrip s := by
  cases hs : pyStrip s with
  | nil => rfl
  | cons a t =>
    have h1 : pyIsSpaceChar a = false := pyStrip_head s a t hs
    have hdw : (a :: t).dropWhile pyIsSpaceChar = a :: t := by
      rw [List.dropWhile_cons, if_neg (by simp [h1])]
    have h2 : (a :: t).reverse.dropWhile pyIsSpaceChar = (a :: t).reverse := by
      rw [← hs, pyStrip, List.reverse_reverse]
      exact List.dropWhile_idempotent _ _
    rw [pyStrip, hdw, h2, List.reverse_reverse]

lemma pyStrip_sandwich (w1 : List Char) (a : Char) (t : List Char) (w2 : List Char)
    (hw1 : ∀ c ∈ w1, pyIsSpaceChar c = true) (hw2 : ∀ c ∈ w2, pyIsSpaceChar c = true)
    (hqh : pyIsSpaceChar a = false)
    (hql : ∀ c, (a :: t).getLast? = some c → pyIsSpaceChar c = false) :
    pyStrip (w1 ++ (a :: t) ++ w2) = a :: t := by
  have hA : (w1 ++ (a :: t) ++ w2).dropWhile pyIsSpaceChar = (a :: t) ++ w2 := by
    rw [List.append_assoc, dropWhile_append_all pyIsSpaceChar w1 _ hw1,
      List.cons_append, List.dropWhile_cons, if_neg (by simp [hqh]), ← List.cons_append]
  rw [pyStrip, hA, List.reverse_append,
    dropWhile_append_all pyIsSpaceChar w2.reverse _ (fun c hc => hw2 c (List.mem_reverse.mp hc))]
  cases hrev : (a :: t).reverse with
  | nil => exact absurd hrev (by simp)
  | cons c r =>
    have hc : pyIsSpaceChar c = false := by
      apply hql c
      rw [← List.head?_reverse, hrev]
      rfl
    rw [List.dropWhile_cons, if_neg (by simp [hc]), ← hrev, List.reverse_reverse]

end DStt

namespace DStt

/-! ### The one-pass normal form of `add_content_markers` -/

lemma acm_of_not_short {t : List Char} (h : ¬(pyStrip t).length < 3) :
    add_content_markers t = pyStrip (collapseTwoSpaces (replaceDots t)) := by
  rw [add_content_markers, if_neg h]

/-- On inputs whose stripped form has at least 3 characters, the
stripping at the end of `add_content_markers` removes exactly the
whitespace wings of the input, so the output is the collapse of the
dot-replacement of the stripped input — and it keeps length at least 3. -/
lemma acm_long (x : List Char) (hlen : ¬(pyStrip x).length < 3) :
    add_content_markers x = collapseTwoSpaces (replaceDots (pyStrip x))
    ∧ 3 ≤ (add_content_markers x).length := by
  obtain ⟨w1, w2, hx, hw1, hw2⟩ := pyStrip_decomp x
  cases hu : pyStrip x with
  | nil => rw [hu] at hlen; simp at hlen
  | cons a t =>
    rw [hu] at hx
    have hlen3 : 3 ≤ (a :: t).length := by
      rw [← hu]
      exact not_lt.mp hlen
    have hha : pyIsSpaceChar a = false := pyStrip_head x a t hu
    have hhl : ∀ c, (a :: t).getLast? = some c → pyIsSpaceChar c = false :=
      fun c hc => pyStrip_getLast x c (by rw [hu]; exact hc)
    obtain ⟨lu, hlu⟩ : ∃ lu, (a :: t).getLast? = some lu := by
      rw [← List.head?_reverse]
      cases hrev : (a :: t).reverse with
      | nil => exact absurd hrev (by simp)
      | cons z zs => exact ⟨z, rfl⟩
    have hlu_ws : pyIsSpaceChar lu = false := hhl lu hlu
    obtain ⟨mh, hmh, hmor⟩ := rd_head a t
    have hmh_ws : pyIsSpaceChar mh = false := by
      rcases hmor with rfl | rfl
      · exact hha
      · decide
    obtain ⟨lm, hml, hlm_ws⟩ :
        ∃ lm, (replaceDots (a :: t)).getLast? = some lm ∧ pyIsSpaceChar lm = false := by
      rcases rd_getLast (a :: t) lu hlu with hml | hml
      · exact ⟨lu, hml, hlu_ws⟩
      · exact ⟨']', hml, by decide⟩
    have hmlen : 3 ≤ (replaceDots (a :: t)).length := le_trans hlen3 (rd_length (a :: t))
    have hrd_x : replaceDots x = w1 ++ (replaceDots (a :: t) ++ w2) := by
      rw [hx, List.append_assoc,
        rd_append_left w1 _ (fun c hc => ne_dot_of_ws_true (hw1 c hc)),
        rd_append_right (a :: t) w2 (fun c hc => ne_dot_of_ws_true (hw2 c hc))]
    have hq_head : ∀ z, (replaceDots (a :: t) ++ w2).head? = some z → z ≠ ' ' := by
      intro z hz
      cases hm : replaceDots (a :: t) with
      | nil => exact absurd hm (replaceDots_ne_nil (by simp))
      | cons m0 mt =>
        rw [hm, List.cons_append, List.head?_cons, Option.some_inj] at hz
        rw [hm, List.head?_cons, Option.some_inj] at hmh
        rw [← hz, hmh]
        exact ne_space_of_ws_false hmh_ws
    have hcol : collapseTwoSpaces (replaceDots x)
        = collapseTwoSpaces w1
          ++ (collapseTwoSpaces (replaceDots (a :: t)) ++ collapseTwoSpaces w2) := by
      rw [hrd_x, collapse_append_head w1 _ hq_head,
        collapse_append_last (replaceDots (a :: t)) w2
          (fun c hcc => by
            have hlc : lm = c := Option.some_inj.mp (hml.symm.trans hcc)
            rw [← hlc]
            exact ne_space_of_ws_false hlm_ws)]
    have hq_ne : collapseTwoSpaces (replaceDots (a :: t)) ≠ [] :=
      collapse_ne_nil (replaceDots_ne_nil (by simp))
    have hq_last : (collapseTwoSpaces (replaceDots (a :: t))).getLast? = some lm :=
      collapse_getLast lm hml (ne_space_of_ws_false hlm_ws)
    have hstrip : pyStrip (collapseTwoSpaces (replaceDots x))
        = collapseTwoSpaces (replaceDots (a :: t)) := by
      cases hq : collapseTwoSpaces (replaceDots (a :: t)) with
      | nil => exact absurd hq hq_ne
      | cons q0 qt =>
        rw [hcol, hq, ← List.append_assoc]
        apply pyStrip_sandwich _ q0 qt _ (collapse_all_ws hw1) (collapse_all_ws hw2)
        · cases hm : replaceDots (a :: t) with
          | nil => exact absurd hm (replaceDots_ne_nil (by simp))
          | cons m0 mt =>
            have hch := collapse_head m0 mt
            rw [← hm, hq, List.head?_cons, Option.some_inj] at hch
            rw [hm, List.head?_cons, Option.some_inj] at hmh
            rw [hch, hmh]
            exact hmh_ws
        · intro c hcq
          rw [hq] at hq_last
          have hlc : lm = c := Option.some_inj.mp (hq_last.symm.trans hcq)
          rw [← hlc]
          exact hlm_ws
    have hlen_q : 3 ≤ (collapseTwoSpaces (replaceDots (a :: t))).length := by
      cases hm : replaceDots (a :: t) with
      | nil => exact absurd hm (replaceDots_ne_nil (by simp))
      | cons m0 mt =>
        rw [hm] at hmlen hml
        simp only [List.length_cons] at hmlen
        have hmt_ne : mt ≠ [] := by
          intro hmt
          rw [hmt] at hmlen
          simp at hmlen
        have hml2 : mt.getLast? = some lm := by
          cases hmt : mt with
          | nil => exact absurd hmt hmt_ne
          | cons y ys =>
            rw [hmt, List.getLast?_cons_cons] at hml
            exact hml
        have hmt_len : 2 ≤ mt.length := by
          cases hmt : mt with
          | nil => exact absurd hmt hmt_ne
          | cons y ys =>
            rw [hmt] at hmlen
            simp only [List.length_cons] at hmlen ⊢
            omega
        have hc2 : 2 ≤ (collapseTwoSpaces mt).length :=
          collapse_length_ge_two lm hml2 (ne_space_of_ws_false hlm_ws) hmt_len
        have hm0_ws : pyIsSpaceChar m0 = false := by
          rw [hm, List.head?_cons, Option.some_inj] at hmh
          rw [hmh]
          exact hmh_ws
        have hcm : collapseTwoSpaces (m0 :: mt) = m0 :: collapseTwoSpaces mt := by
          cases hmt : mt with
          | nil => exact absurd hmt hmt_ne
          | cons y ys =>
            rw [collapseTwoSpaces_cons2,
              if_neg (fun hdd => ne_space_of_ws_false hm0_ws hdd.1)]
        rw [hcm]
        simp only [List.length_cons]
        omega
    constructor
    · rw [add_content_markers, if_neg hlen]
      exact hstrip
    · rw [add_content_markers, if_neg hlen, hstrip]
      exact hlen_q

/-- Claim C3 counterexample: the normalizer is not idempotent — on
`"a   b"` one pass gives `"a  b"` and a second pass gives `"a b"`. -/
theorem c3_counterexample :
    add_content_markers (add_content_markers ['a', ' ', ' ', ' ', 'b'])
      ≠ add_content_markers ['a', ' ', ' ', ' ', 'b'] := by decide

/-- Claim C3 (amended): the normalizer is idempotent on every input
whose one-pass output contains no two consecutive spaces; in general a
run of three or more spaces collapses by only one space per pass. -/
theorem c3_idempotent_amended (x : List Char)
    (hds : hasDoubleSpace (add_content_markers x) = false) :
    add_content_markers (add_content_markers x) = add_content_markers x := by
  by_cases hlen : (pyStrip x).length < 3
  · have hfx : add_content_markers x = unclearMarker := by
      rw [add_content_markers, if_pos hlen]
    rw [hfx]
    decide
  · obtain ⟨hfx, hlen3⟩ := acm_long x hlen
    have hstrip_fx : pyStrip (add_content_markers x) = add_content_markers x := by
      rw [acm_of_not_short hlen, pyStrip_idem]
    have htrip : hasTriple (add_content_markers x) = false := by
      rw [hfx]
      exact hasTriple_collapse (hasTriple_replaceDots _)
    have houter_len : ¬(pyStrip (add_content_markers x)).length < 3 := by
      rw [hstrip_fx]
      exact not_lt.mpr hlen3
    calc add_content_markers (add_content_markers x)
        = pyStrip (collapseTwoSpaces (replaceDots (add_content_markers x))) :=
          acm_of_not_short houter_len
      _ = pyStrip (collapseTwoSpaces (add_content_markers x)) := by
          rw [replaceDots_eq_self htrip]
      _ = pyStrip (add_content_markers x) := by rw [collapse_eq_self hds]
      _ = add_content_markers x := hstrip_fx

/-- Witness for `c3_idempotent_amended` at a concrete input containing
dots and a double space, whose one-pass output has no double space. -/
theorem c3_witness :
    hasDoubleSpace (add_content_markers ['o', 'k', ' ', ' ', 'd', 'a', '.', '.', '.']) = false
    ∧ add_content_markers (add_content_markers ['o', 'k', ' ', ' ', 'd', 'a', '.', '.', '.'])
        = add_content_markers ['o', 'k', ' ', ' ', 'd', 'a', '.', '.', '.'] :=
  ⟨by decide, c3_idempotent_amended ['o', 'k', ' ', ' ', 'd', 'a', '.', '.', '.'] (by decide)⟩

end DStt

namespace DStt

/-- Witness for `c8_pause_filtering` at a concrete two-segment input,
instantiating the membership characterization at the gap value 2. -/
theorem c8_witness :
    pauses [⟨0, 1, [], none⟩, ⟨3, 4, [], none⟩]
      = (adjacentGaps [⟨0, 1, [], none⟩, ⟨3, 4, [], none⟩]).filter (fun d => decide (0 < d))
    ∧ ((2 : ℚ) ∈ pauses [⟨0, 1, [], none⟩, ⟨3, 4, [], none⟩]
        ↔ (2 : ℚ) ∈ adjacentGaps [⟨0, 1, [], none⟩, ⟨3, 4, [], none⟩] ∧ (0 : ℚ) < 2) :=
  ⟨(c8_pause_filtering [⟨0, 1, [], none⟩, ⟨3, 4, [], none⟩]).1,
    (c8_pause_filtering [⟨0, 1, [], none⟩, ⟨3, 4, [], none⟩]).2.1 2⟩

end DStt
